import Mathlib

/-!
Shallow embedding of `src/api/ashare.py` (class `TushareDataHandler`) and
proofs about its fetch-and-reshape pipeline.

Modelling conventions:
* A provider response row (`pro.daily` / `pro.daily_basic`) is a `RawRow`:
  a trade date (YYYYMMDD kept as `Nat`, parsing to datetime is
  order-preserving), a `ts_code` string and an association list from raw
  column names to rational values (floats are modelled exactly as `Rat`).
* A pandas DataFrame built from the dict `{(stock, field): series}` is a
  `WideTable`: the ordered column keys plus rows of `(date, cells)`.
  Following pandas alignment semantics for a dict of Series: when every
  series carries the very same index the series are combined positionally
  (duplicate labels are kept); otherwise the indexes are united (which
  requires each series' own index to be duplicate-free, else pandas raises
  its duplicate-label reindex error) and missing dates become `none` cells.
* Python exceptions are `Except FetchError`; remote calls issued and
  printed diagnostics are returned as explicit traces in `Run`.
-/

/-- One long-format response row as returned by the remote provider. -/
structure RawRow where
  trade_date : Nat
  ts_code : String
  vals : List (String × Rat)
deriving DecidableEq, Repr

/-- A cell of the wide table: `none` is pandas' missing marker (NaN). -/
abbrev Cell := Option Rat

/-- One row of the wide table: the date index value and the cells, aligned
positionally with the table's column keys. -/
abbrev WRow := Nat × List Cell

/-- The reshaped wide table: two-level column keys `(symbol, field)` in
construction order, and the date-indexed rows. -/
structure WideTable where
  cols : List (String × String)
  rows : List WRow
deriving DecidableEq, Repr

/-- The Python exceptions that the pipeline can raise. -/
inductive FetchError where
  /-- `field_mapping[field]` raises `KeyError` for an unknown field name. -/
  | keyError (field : String)
  /-- `pd.concat([])` raises `ValueError` (no objects to concatenate). -/
  | concatEmpty
  /-- pandas raises when reindexing a series whose index has duplicates. -/
  | duplicateAxis
deriving DecidableEq, Repr

instance {e a : Type} [DecidableEq e] [DecidableEq a] :
    DecidableEq (Except e a) := fun x y =>
  match x, y with
  | .ok v, .ok w =>
    if h : v = w then isTrue (by rw [h]) else isFalse (by
      intro hc
      cases hc
      exact h rfl)
  | .error v, .error w =>
    if h : v = w then isTrue (by rw [h]) else isFalse (by
      intro hc
      cases hc
      exact h rfl)
  | .ok _, .error _ => isFalse (by intro hc; cases hc)
  | .error _, .ok _ => isFalse (by intro hc; cases hc)

/-- The normalization table of `get_prices_from_tushare` (lines 64-70). -/
def field_mapping : List (String × String) :=
  [("open", "Open"), ("high", "High"), ("low", "Low"),
   ("close", "Close"), ("vol", "Volume")]

/-- The comprehension `[field_mapping[field] for field in fields]`:
maps every requested field through the table, raising `KeyError` on the
first unknown name. -/
def mapFields : List String → Except FetchError (List String)
  | [] => .ok []
  | f :: fs =>
    match field_mapping.lookup f with
    | some m => (mapFields fs).map (fun ms => m :: ms)
    | none => .error (.keyError f)

/-- Rows of the long table belonging to one symbol, in arrival order. -/
def rowsOf (L : List RawRow) (s : String) : List RawRow :=
  L.filter (fun r => r.ts_code == s)

/-- The date index of one symbol's series (duplicates preserved). -/
def datesOf (L : List RawRow) (s : String) : List Nat :=
  (rowsOf L s).map (fun r => r.trade_date)

/-- `combined_data.index.get_level_values('ts_code').unique()`: the distinct
symbols of the long table in first-seen order. -/
def uniqueKeep (L : List RawRow) : List String :=
  L.foldl (fun acc r => if r.ts_code ∈ acc then acc else acc ++ [r.ts_code]) []

/-- The dict keys inserted by the double loop `for stock ...: for field ...`,
namely `(stock, mapped_field)` in stock-major order.  `pairs` zips each raw
field name with its canonical output name. -/
def colKeys (syms : List String) (pairs : List (String × String)) :
    List (String × String) :=
  syms.flatMap (fun s => pairs.map (fun p => (s, p.2)))

/-- One symbol's extracted series, positionally: for each of the symbol's
rows, the date label and the requested raw-field values. -/
def seriesOf (pairs : List (String × String)) (ms : List RawRow) : List WRow :=
  ms.map (fun r => (r.trade_date, pairs.map (fun p => r.vals.lookup p.1)))

/-- Positional combination of per-symbol series that all carry the same
index: cells are concatenated row by row. -/
def combineCols : List (List WRow) → List WRow
  | [] => []
  | [l] => l
  | l :: ls => List.zipWith (fun a b => (a.1, a.2 ++ b.2)) l (combineCols ls)

/-- The order relation used by `sort_index(ascending=True)`. -/
def rowLE (a b : WRow) : Prop := a.1 ≤ b.1

instance : DecidableRel rowLE := fun a b => Nat.decLe a.1 b.1

instance : IsTotal WRow rowLE := ⟨fun a b => Nat.le_total a.1 b.1⟩

instance : IsTrans WRow rowLE := ⟨fun _ _ _ h h' => Nat.le_trans h h'⟩

/-- `sort_index(ascending=True)`: a stable sort of the rows by date. -/
def sortRows (l : List WRow) : List WRow := List.insertionSort rowLE l

/-- The sorted, de-duplicated union of date labels that pandas aligns
differing series indexes to. -/
def sortedUnion (ds : List Nat) : List Nat :=
  List.insertionSort (· ≤ ·) ds.dedup

/-- `combined_data.loc[mask, field]` restricted to one date: the first row
of the symbol carrying that date label. -/
def findRow (L : List RawRow) (s : String) (d : Nat) : Option RawRow :=
  (rowsOf L s).find? (fun r => r.trade_date == d)

/-- The cell of symbol `s`, raw field `p.1`, at date `d`: the value when the
symbol has a row on that date, the missing marker otherwise. -/
def cellAt (L : List RawRow) (p : String × String) (s : String) (d : Nat) :
    Cell :=
  (findRow L s d).bind (fun r => r.vals.lookup p.1)

/-- Rows produced by aligning all series on the union of their date
indexes (the pandas reindex path). -/
def unionRows (L : List RawRow) (syms : List String)
    (pairs : List (String × String)) : List WRow :=
  (sortedUnion (L.map (fun r => r.trade_date))).map
    (fun d => (d, syms.flatMap (fun s => pairs.map (fun p => cellAt L p s d))))

/-- The reshaping step shared by all four fetchers (lines 98-110 and their
clones): build `{(stock, field): series}` per symbol and field, assemble
with pandas alignment semantics, and sort rows by date ascending. -/
def pivotCore (L : List RawRow) (pairs : List (String × String)) :
    Except FetchError WideTable :=
  match uniqueKeep L with
  | [] => .ok ⟨colKeys [] pairs, []⟩
  | s0 :: rest =>
    if (s0 :: rest).all (fun s => datesOf L s == datesOf L s0) then
      .ok ⟨colKeys (s0 :: rest) pairs,
        sortRows (combineCols ((s0 :: rest).map (fun s => seriesOf pairs (rowsOf L s))))⟩
    else if (s0 :: rest).all (fun s => decide (datesOf L s).Nodup) then
      .ok ⟨colKeys (s0 :: rest) pairs, sortRows (unionRows L (s0 :: rest) pairs)⟩
    else
      .error .duplicateAxis

/-- The remote provider boundary (`self.pro`).  Each operation is a pure
function of the symbol argument (single code or comma-joined batch); the
date range of the handler is absorbed into the closure. -/
structure Provider where
  daily : String → List RawRow
  daily_basic : String → List String → List RawRow

/-- Result of one fetch operation: the returned value or raised exception,
the `ts_code` arguments of the remote calls actually issued, and the
printed diagnostic messages. -/
structure Run (α : Type) where
  res : Except FetchError α
  calls : List String
  msgs : List String

/-- `df['ts_code'] = stock`: overwrite the symbol column of a response. -/
def setCode (s : String) (rows : List RawRow) : List RawRow :=
  rows.map (fun r => { r with ts_code := s })

/-- `','.join(stock_list)`. -/
def joinCodes (stocks : List String) : String := String.intercalate "," stocks

/-- The concatenated long table built by the sequential price fetcher's
loop (lines 77-90). -/
def seqLongPrices (pro : Provider) (stocks : List String) : List RawRow :=
  stocks.flatMap (fun s => setCode s (pro.daily s))

/-- Lines 56-112: sequential per-symbol price fetch, then reshape. -/
def get_prices_from_tushare (pro : Provider) (stocks : List String)
    (fields : List String) : Run WideTable :=
  match mapFields fields with
  | .error e => ⟨.error e, [], []⟩
  | .ok mapped =>
    let msgs := "开始获取行情数据..." ::
      ((List.range stocks.length).map toString ++ ["数据获取完成！"])
    if stocks.isEmpty then ⟨.error .concatEmpty, stocks, msgs⟩
    else ⟨pivotCore (seqLongPrices pro stocks) (fields.zip mapped), stocks, msgs⟩

/-- Lines 115-161: batched ("parallel") price fetch, then reshape.
Returns `none` (Python `None`) when the provider response is empty. -/
def get_prices_from_tushare_parallel (pro : Provider) (stocks : List String)
    (fields : List String) : Run (Option WideTable) :=
  match mapFields fields with
  | .error e => ⟨.error e, [], []⟩
  | .ok mapped =>
    let df_all := pro.daily (joinCodes stocks)
    if df_all.isEmpty then
      ⟨.ok none, [joinCodes stocks],
        ["开始获取行情数据...", "API 未返回任何数据，请检查输入参数！"]⟩
    else
      ⟨(pivotCore df_all (fields.zip mapped)).map some, [joinCodes stocks],
        ["开始获取行情数据...", "数据获取完成！"]⟩

/-- The concatenated long table built by the sequential factor fetcher's
loop (lines 176-188); the provider is asked for `factors + ['trade_date']`. -/
def seqLongFactors (pro : Provider) (stocks factors : List String) :
    List RawRow :=
  stocks.flatMap (fun s => setCode s (pro.daily_basic s (factors ++ ["trade_date"])))

/-- Lines 164-209: sequential per-symbol factor fetch, then reshape.
Factor names are not normalized: the pivot keys use them verbatim. -/
def get_factors_from_tushare (pro : Provider) (stocks factors : List String) :
    Run WideTable :=
  let msgs := ["开始获取因子数据...", "数据获取完成！"]
  if stocks.isEmpty then ⟨.error .concatEmpty, stocks, msgs⟩
  else
    ⟨pivotCore (seqLongFactors pro stocks factors)
      (factors.map (fun f => (f, f))), stocks, msgs⟩

/-- Lines 211-250: batched factor fetch, then reshape; `none` on an empty
provider response. -/
def get_factors_from_tushare_parallel (pro : Provider)
    (stocks factors : List String) : Run (Option WideTable) :=
  let df_all := pro.daily_basic (joinCodes stocks)
    (factors ++ ["trade_date", "ts_code"])
  if df_all.isEmpty then
    ⟨.ok none, [joinCodes stocks],
      ["开始获取因子数据...", "API 未返回任何数据，请检查输入参数！"]⟩
  else
    ⟨(pivotCore df_all (factors.map (fun f => (f, f)))).map some,
      [joinCodes stocks], ["开始获取因子数据...", "数据获取完成！"]⟩

/-- One row of an `index_daily` response. -/
structure IndexRow where
  trade_date : Nat
  ts_code : String
  pct_chg : Rat
deriving DecidableEq, Repr

/-- Running products of a list of rationals. -/
def cumprod (start : Rat) : List Rat → List Rat
  | [] => []
  | x :: xs => (start * x) :: cumprod (start * x) xs

/-- Lines 33-53 (`get_index_prices_from_tushare`): sort the benchmark rows
by date ascending, take the cumulative product of `1 + pct_chg/100`, then
`loc[index[0]] = 1.0`, which overwrites the net value of every row whose
date label equals the first date.  Output rows are
`(trade_date, ts_code, benchmark_net_value)`. -/
def get_index_prices_from_tushare (raw : List IndexRow) :
    List (Nat × String × Rat) :=
  let sorted := List.insertionSort
    (fun a b : IndexRow => a.trade_date ≤ b.trade_date) raw
  let nets := cumprod 1 (sorted.map (fun r => 1 + r.pct_chg / 100))
  let withNet := (sorted.zip nets).map
    (fun rv => (rv.1.trade_date, rv.1.ts_code, rv.2))
  match sorted.head? with
  | none => []
  | some first =>
    withNet.map (fun t => if t.1 = first.trade_date then (t.1, t.2.1, 1) else t)

instance : DecidableRel (fun a b : IndexRow => a.trade_date ≤ b.trade_date) :=
  fun a b => Nat.decLe a.trade_date b.trade_date

/-- Value lookup in a wide table by date label and column key: the first
row carrying the date, then the first column carrying the key.  Returns
`none` when date or column is absent, `some cell` otherwise. -/
def cellVal (w : WideTable) (d : Nat) (c : String × String) : Option Cell :=
  (w.rows.find? (fun row => row.1 == d)).bind
    (fun row => ((w.cols.zip row.2).find? (fun q => q.1 == c)).map (fun q => q.2))

/-! ### Concrete fixtures for counterexamples and witnesses -/

/-- Scenario C input: percent changes 0.5, -1.0, 2.0 over three ascending
dates. -/
def benchRowsC2 : List IndexRow := [⟨1, "X", 1 / 2⟩, ⟨2, "X", -1⟩, ⟨3, "X", 2⟩]

/-- A benchmark series arriving date-descending, first-date change 3%. -/
def benchRowsC3 : List IndexRow := [⟨2, "Y", 7⟩, ⟨1, "Y", 3⟩]

/-- Provider whose batched response lists symbol B's rows before symbol
A's, while the symbol list is given as A then B. -/
def proC1x : Provider where
  daily := fun c =>
    if c = "A" then [⟨1, "A", [("close", 10)]⟩]
    else if c = "B" then [⟨1, "B", [("close", 20)]⟩]
    else [⟨1, "B", [("close", 20)]⟩, ⟨1, "A", [("close", 10)]⟩]
  daily_basic := fun _ _ => []

/-- Provider whose batched responses present the same rows as the
per-symbol responses, with first-seen symbol order matching the request
order. -/
def proC1w : Provider where
  daily := fun c =>
    if c = "A" then [⟨1, "A", [("close", 10)]⟩, ⟨2, "A", [("close", 11)]⟩]
    else if c = "B" then [⟨2, "B", [("close", 20)]⟩]
    else [⟨1, "A", [("close", 10)]⟩, ⟨2, "A", [("close", 11)]⟩,
      ⟨2, "B", [("close", 20)]⟩]
  daily_basic := fun c _ =>
    if c = "A" then [⟨1, "A", [("total_mv", 5)]⟩]
    else if c = "B" then [⟨1, "B", [("total_mv", 6)]⟩]
    else [⟨1, "A", [("total_mv", 5)]⟩, ⟨1, "B", [("total_mv", 6)]⟩]

/-- Provider where symbol A has one row and every other symbol has none. -/
def proC4 : Provider where
  daily := fun c =>
    if c = "A" then [⟨1, "A", [("close", 10), ("open", 9)]⟩] else []
  daily_basic := fun _ _ => []

/-- Provider returning rows date-descending (as the remote service does). -/
def proC5 : Provider where
  daily := fun _ => [⟨2, "A", [("close", 1)]⟩, ⟨1, "A", [("close", 2)]⟩]
  daily_basic := fun _ _ =>
    [⟨2, "A", [("total_mv", 3)]⟩, ⟨1, "A", [("total_mv", 4)]⟩]

/-- Provider used to observe which remote calls the factor fetchers issue. -/
def proC6 : Provider where
  daily := fun _ => []
  daily_basic := fun c _ =>
    if c = "A" then [⟨1, "A", [("total_mv", 5)]⟩] else []

/-- Provider whose every response is empty. -/
def proC7 : Provider where
  daily := fun _ => []
  daily_basic := fun _ _ => []

/-- Provider returning two rows for the same symbol and date. -/
def proC8 : Provider where
  daily := fun _ => [⟨1, "A", [("close", 10)]⟩, ⟨1, "A", [("close", 11)]⟩]
  daily_basic := fun _ _ => []

/-- The long table with a duplicated (date, symbol) observation. -/
def dupRowsC8 : List RawRow :=
  [⟨1, "A", [("close", 10)]⟩, ⟨1, "A", [("close", 11)]⟩]

/-- Provider with data for symbol A only; symbol Z yields zero rows. -/
def proC9 : Provider where
  daily := fun c => if c = "A" then [⟨1, "A", [("close", 10)]⟩] else []
  daily_basic := fun c _ =>
    if c = "A" then [⟨1, "A", [("total_mv", 5)]⟩] else []

/-- Constant tables from the evaluations used in the witnesses. -/
def wC5a : WideTable := ⟨[("A", "Close")], [(1, [some 2]), (2, [some 1])]⟩

def wC5b : WideTable :=
  ⟨[("A", "total_mv")], [(1, [some 4]), (2, [some 3])]⟩

def wC4 : WideTable := ⟨[("A", "Close")], [(1, [some 10])]⟩


/-! ### Properties of the first-seen symbol list -/

/-- Specification-level first-seen de-duplication, structurally recursive:
the head symbol followed by the de-duplication of the remaining rows of
other symbols. -/
def firstSeenSpec : List RawRow → List String
  | [] => []
  | r :: rs => r.ts_code :: firstSeenSpec (rs.filter (fun x => x.ts_code ≠ r.ts_code))
termination_by l => l.length
decreasing_by
  simp only [List.length_cons]
  exact Nat.lt_succ_of_le (List.length_filter_le _ _)

theorem uniqueKeep_aux_mem (L : List RawRow) (acc : List String) (s : String) :
    s ∈ L.foldl (fun a r => if r.ts_code ∈ a then a else a ++ [r.ts_code]) acc ↔
      s ∈ acc ∨ ∃ r ∈ L, r.ts_code = s := by
  induction L generalizing acc with
  | nil => simp
  | cons r rs ih =>
    simp only [List.foldl_cons]
    by_cases h : r.ts_code ∈ acc
    · rw [if_pos h, ih]
      constructor
      · rintro (hs | hs)
        · exact Or.inl hs
        · exact Or.inr (by simpa using Or.inr hs)
      · rintro (hs | hs)
        · exact Or.inl hs
        · rcases hs with ⟨r', hr', hc⟩
          rcases List.mem_cons.mp hr' with rfl | hm
          · exact Or.inl (hc ▸ h)
          · exact Or.inr ⟨r', hm, hc⟩
    · rw [if_neg h, ih]
      constructor
      · rintro (hs | hs)
        · rcases List.mem_append.mp hs with h1 | h1
          · exact Or.inl h1
          · refine Or.inr ⟨r, List.mem_cons_self _ _, ?_⟩
            simpa using (List.mem_singleton.mp h1).symm
        · rcases hs with ⟨r', hm, hc⟩
          exact Or.inr ⟨r', List.mem_cons_of_mem _ hm, hc⟩
      · rintro (hs | hs)
        · exact Or.inl (List.mem_append.mpr (Or.inl hs))
        · rcases hs with ⟨r', hm, hc⟩
          rcases List.mem_cons.mp hm with rfl | hm'
          · exact Or.inl (List.mem_append.mpr (Or.inr (by simp [hc])))
          · exact Or.inr ⟨r', hm', hc⟩

theorem uniqueKeep_mem (L : List RawRow) (s : String) :
    s ∈ uniqueKeep L ↔ ∃ r ∈ L, r.ts_code = s := by
  rw [uniqueKeep, uniqueKeep_aux_mem]
  simp

theorem uniqueKeep_aux_nodup (L : List RawRow) (acc : List String)
    (h : acc.Nodup) :
    (L.foldl (fun a r => if r.ts_code ∈ a then a else a ++ [r.ts_code]) acc).Nodup := by
  induction L generalizing acc with
  | nil => exact h
  | cons r rs ih =>
    simp only [List.foldl_cons]
    by_cases hm : r.ts_code ∈ acc
    · rw [if_pos hm]; exact ih _ h
    · rw [if_neg hm]
      exact ih _ (by simpa [List.nodup_append] using ⟨h, hm⟩)

theorem uniqueKeep_nodup (L : List RawRow) : (uniqueKeep L).Nodup :=
  uniqueKeep_aux_nodup L [] List.nodup_nil

theorem uniqueKeep_eq_nil (L : List RawRow) : uniqueKeep L = [] ↔ L = [] := by
  constructor
  · intro h
    cases L with
    | nil => rfl
    | cons r rs =>
      exfalso
      have : r.ts_code ∈ uniqueKeep (r :: rs) :=
        (uniqueKeep_mem _ _).mpr ⟨r, List.mem_cons_self _ _, rfl⟩
      rw [h] at this
      exact List.not_mem_nil _ this
  · rintro rfl; rfl

theorem uniqueKeep_aux_spec (L : List RawRow) (acc : List String) :
    L.foldl (fun a r => if r.ts_code ∈ a then a else a ++ [r.ts_code]) acc =
      acc ++ firstSeenSpec (L.filter (fun r => r.ts_code ∉ acc)) := by
  induction L generalizing acc with
  | nil => simp [firstSeenSpec]
  | cons r rs ih =>
    simp only [List.foldl_cons, List.filter_cons]
    by_cases hm : r.ts_code ∈ acc
    · rw [if_pos hm]
      have hd : (decide (r.ts_code ∉ acc)) = false := by simpa using hm
      rw [hd, if_neg (by simp)]
      exact ih acc
    · rw [if_neg hm]
      have hd : (decide (r.ts_code ∉ acc)) = true := by simpa using hm
      rw [hd, if_pos rfl, ih (acc ++ [r.ts_code])]
      rw [firstSeenSpec, List.append_assoc, List.cons_append, List.nil_append]
      congr 2
      apply congrArg
      rw [List.filter_filter]
      apply List.filter_congr
      intro x _
      by_cases h1 : x.ts_code = r.ts_code <;> by_cases h2 : x.ts_code ∈ acc <;>
        simp [h1, h2]

theorem uniqueKeep_eq_firstSeenSpec (L : List RawRow) :
    uniqueKeep L = firstSeenSpec L := by
  have h := uniqueKeep_aux_spec L []
  simpa [uniqueKeep] using h

/-! ### Properties of field normalization -/

theorem mapFields_ok_length (fields mapped : List String)
    (h : mapFields fields = .ok mapped) : mapped.length = fields.length := by
  induction fields generalizing mapped with
  | nil => cases h; rfl
  | cons f fs ih =>
    rw [mapFields] at h
    cases hl : field_mapping.lookup f with
    | none => rw [hl] at h; cases h
    | some m =>
      rw [hl] at h
      cases hr : mapFields fs with
      | error e => rw [hr] at h; cases h
      | ok ms =>
        rw [hr] at h
        cases h
        simp [ih ms hr]

theorem mapFields_ok_mem (fields mapped : List String)
    (h : mapFields fields = .ok mapped) (m : String) :
    m ∈ mapped ↔ ∃ f ∈ fields, field_mapping.lookup f = some m := by
  induction fields generalizing mapped with
  | nil => cases h; simp
  | cons f fs ih =>
    rw [mapFields] at h
    cases hl : field_mapping.lookup f with
    | none => rw [hl] at h; cases h
    | some m' =>
      rw [hl] at h
      cases hr : mapFields fs with
      | error e => rw [hr] at h; cases h
      | ok ms =>
        rw [hr] at h
        cases h
        simp only [List.mem_cons, ih ms hr]
        constructor
        · rintro (rfl | ⟨f', hf', hlk⟩)
          · exact ⟨f, Or.inl rfl, hl⟩
          · exact ⟨f', Or.inr hf', hlk⟩
        · rintro ⟨f', rfl | hf', hlk⟩
          · rw [hl] at hlk; exact Or.inl (Option.some_injective _ hlk).symm
          · exact Or.inr ⟨f', hf', hlk⟩

theorem mapFields_zip_lookup (fields mapped : List String)
    (h : mapFields fields = .ok mapped) :
    ∀ p ∈ fields.zip mapped, field_mapping.lookup p.1 = some p.2 := by
  induction fields generalizing mapped with
  | nil => cases h; simp
  | cons f fs ih =>
    rw [mapFields] at h
    cases hl : field_mapping.lookup f with
    | none => rw [hl] at h; cases h
    | some m' =>
      rw [hl] at h
      cases hr : mapFields fs with
      | error e => rw [hr] at h; cases h
      | ok ms =>
        rw [hr] at h
        cases h
        intro p hp
        rcases List.mem_cons.mp hp with rfl | hp'
        · exact hl
        · exact ih ms hr p hp'

theorem mapFields_error_of_unknown (fields : List String) (f : String)
    (hf : f ∈ fields) (hunk : field_mapping.lookup f = none) :
    ∃ g ∈ fields, field_mapping.lookup g = none ∧
      mapFields fields = .error (.keyError g) := by
  induction fields with
  | nil => cases hf
  | cons f0 fs ih =>
    cases hl : field_mapping.lookup f0 with
    | none => exact ⟨f0, List.mem_cons_self _ _, hl, by rw [mapFields, hl]⟩
    | some m =>
      rcases List.mem_cons.mp hf with rfl | hf'
      · rw [hl] at hunk; cases hunk
      · rcases ih hf' with ⟨g, hg, hgn, herr⟩
        exact ⟨g, List.mem_cons_of_mem _ hg, hgn, by rw [mapFields, hl, herr]; rfl⟩

/-! ### Basic properties of the reshaping step -/

theorem pivotCore_ok_cols (L : List RawRow) (pairs : List (String × String))
    (w : WideTable) (h : pivotCore L pairs = .ok w) :
    w.cols = colKeys (uniqueKeep L) pairs := by
  unfold pivotCore at h
  split at h
  · next hU => cases h; rw [hU]
  · next s0 rest hU =>
    split at h
    · cases h; rw [hU]
    · split at h
      · cases h; rw [hU]
      · cases h

theorem pivotCore_rows_sorted (L : List RawRow) (pairs : List (String × String))
    (w : WideTable) (h : pivotCore L pairs = .ok w) :
    w.rows.Pairwise rowLE := by
  unfold pivotCore at h
  split at h
  · cases h; exact List.Pairwise.nil
  · split at h
    · cases h; exact List.sorted_insertionSort rowLE _
    · split at h
      · cases h; exact List.sorted_insertionSort rowLE _
      · cases h

/-! ### Benchmark net-value computation -/

theorem cumprod_length (start : Rat) (xs : List Rat) :
    (cumprod start xs).length = xs.length := by
  induction xs generalizing start with
  | nil => rfl
  | cons x xs ih => simp [cumprod, ih]

theorem cumprod_succ_getElem (start : Rat) (xs : List Rat) (i : Nat) :
    (cumprod start xs)[i + 1]? =
      ((cumprod start xs)[i]?).bind
        (fun v => (xs[i + 1]?).map (fun x => v * x)) := by
  induction xs generalizing start i with
  | nil => simp [cumprod]
  | cons x xs ih =>
    cases i with
    | zero =>
      cases xs with
      | nil => simp [cumprod]
      | cons y ys => simp [cumprod]
    | succ j =>
      have h := ih (start * x) j
      simpa [cumprod] using h

/-- Closed form of the benchmark pipeline on an input already strictly
ascending by date: first net value forced to `1`, later net values the
running cumulative products that still include the first row's factor. -/
theorem get_index_closed (r : IndexRow) (rs : List IndexRow)
    (hasc : (r :: rs).Pairwise (fun a b => a.trade_date < b.trade_date)) :
    (get_index_prices_from_tushare (r :: rs)).map (fun t => t.2.2) =
      1 :: cumprod (1 + r.pct_chg / 100)
        (rs.map (fun x => 1 + x.pct_chg / 100)) := by
  have hsorted : List.Sorted (fun a b : IndexRow => a.trade_date ≤ b.trade_date)
      (r :: rs) := hasc.imp (fun h => Nat.le_of_lt h)
  have hins : List.insertionSort
      (fun a b : IndexRow => a.trade_date ≤ b.trade_date) (r :: rs) = r :: rs :=
    hsorted.insertionSort_eq
  have hne : ∀ x ∈ rs, x.trade_date ≠ r.trade_date := by
    intro x hx
    have := (List.pairwise_cons.mp hasc).1 x hx
    omega
  rw [get_index_prices_from_tushare, hins]
  simp only [List.map_cons, cumprod, List.zip_cons_cons, List.head?_cons]
  rw [one_mul]
  congr 1
  rw [List.map_map, List.map_map]
  have hpt : ∀ rv ∈ rs.zip (cumprod (1 + r.pct_chg / 100)
      (rs.map (fun x => 1 + x.pct_chg / 100))),
      (((fun t : Nat × String × Rat => t.2.2) ∘
        (fun t : Nat × String × Rat =>
          if t.1 = r.trade_date then (t.1, t.2.1, 1) else t)) ∘
        (fun rv : IndexRow × Rat => (rv.1.trade_date, rv.1.ts_code, rv.2))) rv =
      Prod.snd rv := by
    intro rv hrv
    have hmem := (List.of_mem_zip hrv).1
    simp [hne rv.1 hmem]
  rw [List.map_congr_left hpt]
  apply List.map_snd_zip
  rw [cumprod_length, List.length_map]

/-- The first net value is forced to `1` for every non-empty input. -/
theorem get_index_head_one (raw : List IndexRow) (h : raw ≠ []) :
    ((get_index_prices_from_tushare raw).head?).map (fun t => t.2.2) = some 1 := by
  have hperm := List.perm_insertionSort
    (fun a b : IndexRow => a.trade_date ≤ b.trade_date) raw
  cases hs : List.insertionSort
      (fun a b : IndexRow => a.trade_date ≤ b.trade_date) raw with
  | nil =>
    exfalso
    rw [hs] at hperm
    exact h hperm.symm.eq_nil
  | cons r rs =>
    rw [get_index_prices_from_tushare, hs]
    simp [cumprod]

/-! ### Canonical form of the reshaping step -/

theorem find?_date_of_nodup (ms : List RawRow) (r : RawRow)
    (hnd : (ms.map (fun x => x.trade_date)).Nodup) (hr : r ∈ ms) :
    ms.find? (fun x => x.trade_date == r.trade_date) = some r := by
  induction ms with
  | nil => cases hr
  | cons m ms ih =>
    rw [List.map_cons, List.nodup_cons] at hnd
    rcases List.mem_cons.mp hr with rfl | hr'
    · rw [List.find?_cons_of_pos _ (by simp)]
    · have hne : m.trade_date ≠ r.trade_date := by
        intro he
        exact hnd.1 (he ▸ List.mem_map_of_mem _ hr')
      rw [List.find?_cons_of_neg _ (by simpa using hne)]
      exact ih hnd.2 hr'

theorem seriesOf_eq_of_nodup (L : List RawRow) (s : String)
    (pairs : List (String × String))
    (hnd : (datesOf L s).Nodup) :
    seriesOf pairs (rowsOf L s) =
      (datesOf L s).map (fun d => (d, pairs.map (fun p => cellAt L p s d))) := by
  rw [seriesOf, datesOf, List.map_map]
  apply List.map_congr_left
  intro r hr
  have hfind : findRow L s r.trade_date = some r := by
    rw [findRow]
    exact find?_date_of_nodup _ r (by rw [datesOf] at hnd; exact hnd) hr
  simp only [Function.comp_apply]
  congr 1
  apply List.map_congr_left
  intro p _
  rw [cellAt, hfind, Option.some_bind]

theorem zipWith_same_map {α β γ δ : Type} (k : β → γ → δ) (f : α → β)
    (g : α → γ) (l : List α) :
    List.zipWith k (l.map f) (l.map g) = l.map (fun x => k (f x) (g x)) := by
  induction l with
  | nil => rfl
  | cons x xs ih => simp [ih]

theorem combineCols_maps (syms : List String) (ds : List Nat)
    (g : String → Nat → List Cell) (hne : syms ≠ []) :
    combineCols (syms.map (fun s => ds.map (fun d => (d, g s d)))) =
      ds.map (fun d => (d, syms.flatMap (fun s => g s d))) := by
  induction syms with
  | nil => cases hne rfl
  | cons s srest ih =>
    cases srest with
    | nil => simp [combineCols]
    | cons s1 srest' =>
      rw [List.map_cons, show combineCols
          ((ds.map (fun d => (d, g s d))) ::
            (s1 :: srest').map (fun s' => ds.map (fun d => (d, g s' d)))) =
          List.zipWith (fun a b => (a.1, a.2 ++ b.2))
            (ds.map (fun d => (d, g s d)))
            (combineCols ((s1 :: srest').map
              (fun s' => ds.map (fun d => (d, g s' d))))) from rfl]
      rw [ih (by simp)]
      rw [zipWith_same_map]
      apply List.map_congr_left
      intro d _
      simp

theorem orderedInsert_map_key (F : Nat → List Cell) (a : Nat) (l : List Nat) :
    List.orderedInsert rowLE (a, F a) (l.map (fun d => (d, F d))) =
      (List.orderedInsert (· ≤ ·) a l).map (fun d => (d, F d)) := by
  induction l with
  | nil => rfl
  | cons b bs ih =>
    simp only [List.map_cons, List.orderedInsert]
    by_cases h : a ≤ b
    · rw [if_pos h, if_pos (show rowLE (a, F a) (b, F b) from h)]
      rfl
    · rw [if_neg h, if_neg (show ¬rowLE (a, F a) (b, F b) from h)]
      rw [List.map_cons, ih]

theorem sortRows_map_key (F : Nat → List Cell) (l : List Nat) :
    sortRows (l.map (fun d => (d, F d))) =
      (List.insertionSort (· ≤ ·) l).map (fun d => (d, F d)) := by
  induction l with
  | nil => rfl
  | cons a l ih =>
    rw [List.map_cons, sortRows, List.insertionSort]
    rw [show List.insertionSort rowLE (l.map (fun d => (d, F d))) =
      sortRows (l.map (fun d => (d, F d))) from rfl]
    rw [ih, List.insertionSort]
    exact orderedInsert_map_key F a (List.insertionSort _ l)

theorem sortedUnion_sorted (ds : List Nat) :
    List.Sorted (· ≤ ·) (sortedUnion ds) :=
  List.sorted_insertionSort _ _

theorem sortedUnion_nodup (ds : List Nat) : (sortedUnion ds).Nodup :=
  ((List.perm_insertionSort _ _).nodup_iff).mpr (List.nodup_dedup ds)

theorem sortedUnion_mem (ds : List Nat) (d : Nat) :
    d ∈ sortedUnion ds ↔ d ∈ ds := by
  rw [sortedUnion]
  rw [(List.perm_insertionSort (· ≤ ·) ds.dedup).mem_iff]
  exact List.mem_dedup

theorem insertionSort_eq_sortedUnion (idx0 allD : List Nat)
    (hnd : idx0.Nodup) (hmem : ∀ d, d ∈ idx0 ↔ d ∈ allD) :
    List.insertionSort (· ≤ ·) idx0 = sortedUnion allD := by
  apply List.eq_of_perm_of_sorted _ (List.sorted_insertionSort _ _)
    (sortedUnion_sorted allD)
  apply (List.perm_ext_iff_of_nodup
    (((List.perm_insertionSort _ _).nodup_iff).mpr hnd)
    (sortedUnion_nodup allD)).mpr
  intro d
  rw [(List.perm_insertionSort (· ≤ ·) idx0).mem_iff, sortedUnion_mem]
  exact hmem d

theorem unionRows_sorted_rows (L : List RawRow) (syms : List String)
    (pairs : List (String × String)) :
    List.Sorted rowLE (unionRows L syms pairs) := by
  rw [unionRows]
  exact (sortedUnion_sorted _).map _ (fun a b h => h)

theorem datesOf_subset_dates (L : List RawRow) (s : String) :
    ∀ d ∈ datesOf L s, d ∈ L.map (fun r => r.trade_date) := by
  intro d hd
  rw [datesOf] at hd
  rcases List.mem_map.mp hd with ⟨r, hr, rfl⟩
  exact List.mem_map_of_mem _ (List.mem_of_mem_filter hr)

theorem mem_rowsOf_self (L : List RawRow) (r : RawRow) (hr : r ∈ L) :
    r ∈ rowsOf L r.ts_code :=
  List.mem_filter.mpr ⟨hr, by simp⟩

/-- Under the provider contract of one row per symbol and date, both
assembly paths of the reshaping step coincide with the canonical
union-aligned form, and no error is raised. -/
theorem pivotCore_canon (L : List RawRow) (pairs : List (String × String))
    (hnd : ∀ s, (datesOf L s).Nodup) :
    pivotCore L pairs =
      .ok ⟨colKeys (uniqueKeep L) pairs, unionRows L (uniqueKeep L) pairs⟩ := by
  cases hU : uniqueKeep L with
  | nil =>
    have hL : L = [] := (uniqueKeep_eq_nil L).mp hU
    subst hL
    rfl
  | cons s0 rest =>
    unfold pivotCore
    rw [hU]
    dsimp only
    by_cases hA : ((s0 :: rest).all (fun s => datesOf L s == datesOf L s0)) = true
    · rw [if_pos hA]
      have heq : ∀ s ∈ s0 :: rest, datesOf L s = datesOf L s0 := by
        intro s hs
        exact eq_of_beq (List.all_eq_true.mp hA s hs)
      have hmaps : (s0 :: rest).map (fun s => seriesOf pairs (rowsOf L s)) =
          (s0 :: rest).map (fun s => (datesOf L s0).map
            (fun d => (d, pairs.map (fun p => cellAt L p s d)))) := by
        apply List.map_congr_left
        intro s hs
        rw [seriesOf_eq_of_nodup L s pairs (hnd s), heq s hs]
      rw [hmaps, combineCols_maps _ _ _ (by simp)]
      rw [sortRows_map_key (fun d => (s0 :: rest).flatMap
        (fun s => pairs.map (fun p => cellAt L p s d)))]
      rw [unionRows]
      rw [insertionSort_eq_sortedUnion (datesOf L s0)
        (L.map (fun r => r.trade_date)) (hnd s0) ?memiff]
      case memiff =>
        intro d
        constructor
        · exact fun hd => datesOf_subset_dates L s0 d hd
        · intro hd
          rcases List.mem_map.mp hd with ⟨r, hr, rfl⟩
          have hsym : r.ts_code ∈ s0 :: rest := by
            rw [← hU]
            exact (uniqueKeep_mem L _).mpr ⟨r, hr, rfl⟩
          rw [← heq _ hsym, datesOf]
          exact List.mem_map_of_mem _ (mem_rowsOf_self L r hr)
    · have hB : ((s0 :: rest).all (fun s => decide (datesOf L s).Nodup)) = true :=
        List.all_eq_true.mpr (fun s _ => decide_eq_true (hnd s))
      rw [if_neg hA, if_pos hB]
      congr 2
      exact (unionRows_sorted_rows L (s0 :: rest) pairs).insertionSort_eq

/-! ### Permutation invariance of the canonical form -/

theorem findRow_eq_some_iff (L : List RawRow) (s : String) (d : Nat)
    (r : RawRow) (hnd : (datesOf L s).Nodup) :
    findRow L s d = some r ↔ r ∈ rowsOf L s ∧ r.trade_date = d := by
  constructor
  · intro h
    refine ⟨List.mem_of_find?_eq_some h, ?_⟩
    have := List.find?_some h
    simpa using this
  · rintro ⟨hmem, rfl⟩
    rw [findRow]
    exact find?_date_of_nodup _ r (by rw [datesOf] at hnd; exact hnd) hmem

theorem datesOf_nodup_of_perm (L1 L2 : List RawRow) (s : String)
    (hp : L1.Perm L2) (hnd : (datesOf L1 s).Nodup) :
    (datesOf L2 s).Nodup := by
  have : (datesOf L1 s).Perm (datesOf L2 s) := by
    rw [datesOf, datesOf, rowsOf, rowsOf]
    exact (hp.filter (fun r => r.ts_code == s)).map (fun r => r.trade_date)
  exact this.nodup_iff.mp hnd

theorem findRow_eq_of_perm (L1 L2 : List RawRow) (s : String) (d : Nat)
    (hp : L1.Perm L2) (hnd : (datesOf L1 s).Nodup) :
    findRow L1 s d = findRow L2 s d := by
  have hnd2 := datesOf_nodup_of_perm L1 L2 s hp hnd
  have hmem : ∀ r, r ∈ rowsOf L1 s ↔ r ∈ rowsOf L2 s :=
    fun r => (hp.filter (fun x => x.ts_code == s)).mem_iff
  cases hf : findRow L2 s d with
  | some r =>
    have := (findRow_eq_some_iff L2 s d r hnd2).mp hf
    exact (findRow_eq_some_iff L1 s d r hnd).mpr ⟨(hmem r).mpr this.1, this.2⟩
  | none =>
    rw [findRow, List.find?_eq_none]
    intro r hr hpred
    have hdate : r.trade_date = d := by simpa using hpred
    have : findRow L2 s d = some r :=
      (findRow_eq_some_iff L2 s d r hnd2).mpr ⟨(hmem r).mp hr, hdate⟩
    rw [hf] at this
    cases this

theorem cellAt_eq_of_perm (L1 L2 : List RawRow) (p : String × String)
    (s : String) (d : Nat) (hp : L1.Perm L2)
    (hnd : (datesOf L1 s).Nodup) :
    cellAt L1 p s d = cellAt L2 p s d := by
  rw [cellAt, cellAt, findRow_eq_of_perm L1 L2 s d hp hnd]

theorem uniqueKeep_perm_of_perm (L1 L2 : List RawRow) (hp : L1.Perm L2) :
    (uniqueKeep L1).Perm (uniqueKeep L2) := by
  apply (List.perm_ext_iff_of_nodup (uniqueKeep_nodup L1)
    (uniqueKeep_nodup L2)).mpr
  intro s
  rw [uniqueKeep_mem, uniqueKeep_mem]
  constructor
  · rintro ⟨r, hr, rfl⟩; exact ⟨r, hp.mem_iff.mp hr, rfl⟩
  · rintro ⟨r, hr, rfl⟩; exact ⟨r, hp.mem_iff.mpr hr, rfl⟩

theorem sortedUnion_eq_of_perm (ds1 ds2 : List Nat) (hp : ds1.Perm ds2) :
    sortedUnion ds1 = sortedUnion ds2 := by
  apply List.eq_of_perm_of_sorted _ (sortedUnion_sorted ds1) (sortedUnion_sorted ds2)
  apply (List.perm_ext_iff_of_nodup (sortedUnion_nodup ds1)
    (sortedUnion_nodup ds2)).mpr
  intro d
  rw [sortedUnion_mem, sortedUnion_mem]
  exact hp.mem_iff

theorem find?_beq_self (ds : List Nat) (d : Nat) :
    ds.find? (fun x => x == d) = if d ∈ ds then some d else none := by
  induction ds with
  | nil => simp
  | cons x xs ih =>
    by_cases hx : x = d
    · subst hx
      rw [List.find?_cons_of_pos _ (by simp)]
      simp
    · rw [List.find?_cons_of_neg _ (by simpa using hx), ih]
      by_cases hd : d ∈ xs
      · rw [if_pos hd, if_pos (List.mem_cons_of_mem _ hd)]
      · rw [if_neg hd, if_neg (by
          intro hc
          rcases List.mem_cons.mp hc with h1 | h1
          · exact hx h1.symm
          · exact hd h1)]

theorem find?_row_map (ds : List Nat) (F : Nat → List Cell) (d : Nat) :
    (ds.map (fun d' => (d', F d'))).find? (fun row => row.1 == d) =
      if d ∈ ds then some (d, F d) else none := by
  rw [List.find?_map]
  have : ((fun row : WRow => row.1 == d) ∘ (fun d' => (d', F d'))) =
      (fun x => x == d) := rfl
  rw [this, find?_beq_self]
  by_cases hd : d ∈ ds <;> simp [hd]

theorem flatMap_zip_flatMap (syms : List String)
    (pairs : List (String × String))
    (g1 : String → String × String → String × String)
    (g2 : String → String × String → Cell) :
    (syms.flatMap (fun s => pairs.map (g1 s))).zip
        (syms.flatMap (fun s => pairs.map (g2 s))) =
      syms.flatMap (fun s => pairs.map (fun p => (g1 s p, g2 s p))) := by
  induction syms with
  | nil => rfl
  | cons s srest ih =>
    rw [List.flatMap_cons, List.flatMap_cons, List.flatMap_cons,
      List.zip_append (by rw [List.length_map, List.length_map]), ih,
      List.zip_map']

theorem find?_colKey_chunks (syms : List String)
    (pairs : List (String × String)) (v : String → String × String → Cell)
    (cs cm : String) (hsy : syms.Nodup) :
    (syms.flatMap (fun s => pairs.map (fun p => ((s, p.2), v s p)))).find?
        (fun q => q.1 == (cs, cm)) =
      if cs ∈ syms then
        (pairs.find? (fun p => p.2 == cm)).map (fun p => ((cs, p.2), v cs p))
      else none := by
  induction syms with
  | nil => simp
  | cons s srest ih =>
    rw [List.flatMap_cons, List.find?_append]
    rw [List.nodup_cons] at hsy
    by_cases hcs : s = cs
    · subst hcs
      rw [List.find?_map]
      have hpred : ((fun q : (String × String) × Cell => q.1 == (s, cm)) ∘
          (fun p : String × String => ((s, p.2), v s p))) =
          (fun p : String × String => p.2 == cm) := by
        funext p
        simp [Function.comp, Prod.ext_iff]
      rw [hpred]
      rw [if_pos (List.mem_cons_self _ _)]
      cases hf : pairs.find? (fun p => p.2 == cm) with
      | some p0 => simp
      | none =>
        have hrest : List.find? (fun q => q.1 == (s, cm))
            (srest.flatMap (fun s' => pairs.map (fun p => ((s', p.2), v s' p)))) =
            none := by
          rw [ih hsy.2, if_neg hsy.1]
        simp [hrest]
    · have hchunk : (pairs.map (fun p => ((s, p.2), v s p))).find?
          (fun q => q.1 == (cs, cm)) = none := by
        rw [List.find?_eq_none]
        intro q hq
        rcases List.mem_map.mp hq with ⟨p, _, rfl⟩
        simp [Prod.ext_iff, hcs]
      rw [hchunk]
      rw [ih hsy.2]
      by_cases hmem : cs ∈ srest
      · rw [if_pos hmem, if_pos (List.mem_cons_of_mem _ hmem)]
        simp
      · rw [if_neg hmem, if_neg (by
          intro hc
          rcases List.mem_cons.mp hc with h1 | h1
          · exact hcs h1.symm
          · exact hmem h1)]
        simp

theorem cellVal_canon (L : List RawRow) (syms : List String)
    (pairs : List (String × String)) (d : Nat) (cs cm : String)
    (hsy : syms.Nodup) :
    cellVal ⟨colKeys syms pairs, unionRows L syms pairs⟩ d (cs, cm) =
      if d ∈ L.map (fun r => r.trade_date) ∧ cs ∈ syms then
        (pairs.find? (fun p => p.2 == cm)).map (fun p => cellAt L p cs d)
      else none := by
  rw [cellVal]
  dsimp only
  rw [unionRows, find?_row_map]
  by_cases hd : d ∈ L.map (fun r => r.trade_date)
  · rw [if_pos ((sortedUnion_mem _ d).mpr hd)]
    rw [Option.some_bind]
    rw [colKeys]
    rw [flatMap_zip_flatMap syms pairs (fun s p => (s, p.2))
      (fun s p => cellAt L p s d)]
    rw [find?_colKey_chunks syms pairs (fun s p => cellAt L p s d) cs cm hsy]
    by_cases hcs : cs ∈ syms
    · rw [if_pos hcs, if_pos ⟨hd, hcs⟩]
      cases hf : pairs.find? (fun p => p.2 == cm) <;> simp
    · rw [if_neg hcs, if_neg (by tauto)]
      rfl
  · rw [if_neg (fun hc => hd ((sortedUnion_mem _ d).mp hc))]
    rw [if_neg (by tauto)]
    rfl

theorem nodup_datesOf_of_mem_forall (L : List RawRow)
    (h : ∀ s ∈ uniqueKeep L, (datesOf L s).Nodup) :
    ∀ s, (datesOf L s).Nodup := by
  intro s
  by_cases hs : s ∈ uniqueKeep L
  · exact h s hs
  · have hempty : rowsOf L s = [] := by
      rw [rowsOf, List.filter_eq_nil_iff]
      intro r hr hpred
      exact hs ((uniqueKeep_mem L s).mpr ⟨r, hr, by simpa using hpred⟩)
    rw [datesOf, hempty]
    exact List.nodup_nil

theorem pivotCore_perm (L1 L2 : List RawRow) (pairs : List (String × String))
    (hp : L1.Perm L2) (hnd : ∀ s, (datesOf L1 s).Nodup) :
    ∃ w1 w2, pivotCore L1 pairs = .ok w1 ∧ pivotCore L2 pairs = .ok w2 ∧
      w1.rows.map Prod.fst = w2.rows.map Prod.fst ∧
      w1.cols.Perm w2.cols ∧
      (∀ d c, cellVal w1 d c = cellVal w2 d c) ∧
      (uniqueKeep L2 = uniqueKeep L1 → w1 = w2) := by
  have hnd2 : ∀ s, (datesOf L2 s).Nodup :=
    fun s => datesOf_nodup_of_perm L1 L2 s hp (hnd s)
  have hsu : sortedUnion (L1.map (fun r => r.trade_date)) =
      sortedUnion (L2.map (fun r => r.trade_date)) :=
    sortedUnion_eq_of_perm _ _ (hp.map _)
  have hcell : ∀ p s d, cellAt L1 p s d = cellAt L2 p s d :=
    fun p s d => cellAt_eq_of_perm L1 L2 p s d hp (hnd s)
  refine ⟨_, _, pivotCore_canon L1 pairs hnd, pivotCore_canon L2 pairs hnd2,
    ?_, ?_, ?_, ?_⟩
  · show (unionRows L1 (uniqueKeep L1) pairs).map Prod.fst =
      (unionRows L2 (uniqueKeep L2) pairs).map Prod.fst
    rw [unionRows, unionRows, List.map_map, List.map_map, hsu]
    rfl
  · show (colKeys (uniqueKeep L1) pairs).Perm (colKeys (uniqueKeep L2) pairs)
    rw [colKeys, colKeys]
    exact (uniqueKeep_perm_of_perm L1 L2 hp).flatMap_right _
  · rintro d ⟨cs, cm⟩
    rw [cellVal_canon L1 _ pairs d cs cm (uniqueKeep_nodup L1),
      cellVal_canon L2 _ pairs d cs cm (uniqueKeep_nodup L2)]
    have hdmem : (d ∈ L1.map (fun r => r.trade_date)) ↔
        (d ∈ L2.map (fun r => r.trade_date)) := (hp.map _).mem_iff
    have hsmem : (cs ∈ uniqueKeep L1) ↔ (cs ∈ uniqueKeep L2) :=
      (uniqueKeep_perm_of_perm L1 L2 hp).mem_iff
    by_cases h1 : d ∈ L1.map (fun r => r.trade_date) ∧ cs ∈ uniqueKeep L1
    · rw [if_pos h1, if_pos ⟨hdmem.mp h1.1, hsmem.mp h1.2⟩]
      rw [show (fun p : String × String => cellAt L1 p cs d) =
        (fun p => cellAt L2 p cs d) from funext (fun p => hcell p cs d)]
    · rw [if_neg h1, if_neg (by
        intro hc
        exact h1 ⟨hdmem.mpr hc.1, hsmem.mpr hc.2⟩)]
  · intro hUeq
    have hrows : unionRows L1 (uniqueKeep L1) pairs =
        unionRows L2 (uniqueKeep L1) pairs := by
      rw [unionRows, unionRows, hsu]
      apply List.map_congr_left
      intro d _
      have : (fun s => pairs.map (fun p => cellAt L1 p s d)) =
          (fun s => pairs.map (fun p => cellAt L2 p s d)) := by
        funext s
        rw [show (fun p : String × String => cellAt L1 p s d) =
          (fun p => cellAt L2 p s d) from funext (fun p => hcell p s d)]
      rw [this]
    rw [hUeq, hrows]

/-! ### Duplicate rows in the positional path -/

theorem seriesOf_map_fst (pairs : List (String × String)) (ms : List RawRow) :
    (seriesOf pairs ms).map Prod.fst = ms.map (fun r => r.trade_date) := by
  rw [seriesOf, List.map_map]
  rfl

theorem zipWith_keep_fst (l c : List WRow) (h : l.length ≤ c.length) :
    (List.zipWith (fun a b => (a.1, a.2 ++ b.2)) l c).map Prod.fst =
      l.map Prod.fst := by
  induction l generalizing c with
  | nil => simp
  | cons a l ih =>
    cases c with
    | nil => simp at h
    | cons b c =>
      simp only [List.length_cons, Nat.add_le_add_iff_right] at h
      simp [ih c h]

theorem combineCols_map_fst (ls : List (List WRow)) (ds : List Nat)
    (hne : ls ≠ []) (h : ∀ l ∈ ls, l.map Prod.fst = ds) :
    (combineCols ls).map Prod.fst = ds := by
  induction ls with
  | nil => cases hne rfl
  | cons l ls ih =>
    cases ls with
    | nil => simpa [combineCols] using h l (by simp)
    | cons l1 ls' =>
      rw [show combineCols (l :: l1 :: ls') =
        List.zipWith (fun a b => (a.1, a.2 ++ b.2)) l (combineCols (l1 :: ls'))
        from rfl]
      have hl : l.map Prod.fst = ds := h l (by simp)
      have hc : (combineCols (l1 :: ls')).map Prod.fst = ds :=
        ih (by simp) (fun x hx => h x (List.mem_cons_of_mem _ hx))
      rw [zipWith_keep_fst _ _ (by
        have e1 : l.length = ds.length := by rw [← hl, List.length_map]
        have e2 : (combineCols (l1 :: ls')).length = ds.length := by
          rw [← hc, List.length_map]
        omega), hl]

theorem pivotCore_dup_keeps_rows (L : List RawRow)
    (pairs : List (String × String)) (s0 : String) (rest : List String)
    (hU : uniqueKeep L = s0 :: rest)
    (hA : ((s0 :: rest).all (fun s => datesOf L s == datesOf L s0)) = true) :
    ∃ w, pivotCore L pairs = .ok w ∧
      (w.rows.map Prod.fst).Perm (datesOf L s0) := by
  unfold pivotCore
  rw [hU]
  dsimp only
  rw [if_pos hA]
  refine ⟨_, rfl, ?_⟩
  have hperm : (sortRows (combineCols ((s0 :: rest).map
      (fun s => seriesOf pairs (rowsOf L s))))).Perm
      (combineCols ((s0 :: rest).map (fun s => seriesOf pairs (rowsOf L s)))) :=
    List.perm_insertionSort rowLE _
  have hfst : (combineCols ((s0 :: rest).map
      (fun s => seriesOf pairs (rowsOf L s)))).map Prod.fst = datesOf L s0 := by
    apply combineCols_map_fst _ (datesOf L s0) (by simp)
    intro l hl
    rcases List.mem_map.mp hl with ⟨s, hs, rfl⟩
    rw [seriesOf_map_fst]
    have := eq_of_beq (List.all_eq_true.mp hA s hs)
    rw [datesOf] at this
    rw [this]
  rw [← hfst]
  exact hperm.map Prod.fst

theorem pivotCore_dup_error (L : List RawRow)
    (pairs : List (String × String)) (s0 : String) (rest : List String)
    (hU : uniqueKeep L = s0 :: rest)
    (hA : ((s0 :: rest).all (fun s => datesOf L s == datesOf L s0)) = false)
    (hB : ((s0 :: rest).all (fun s => decide (datesOf L s).Nodup)) = false) :
    pivotCore L pairs = .error .duplicateAxis := by
  unfold pivotCore
  rw [hU]
  dsimp only
  rw [if_neg (by simp [hA]), if_neg (by simp [hB])]

/-! ### Unfolding the four fetch operations -/

theorem get_prices_res (pro : Provider) (stocks fields mapped : List String)
    (hm : mapFields fields = .ok mapped) (hne : stocks ≠ []) :
    (get_prices_from_tushare pro stocks fields).res =
      pivotCore (seqLongPrices pro stocks) (fields.zip mapped) := by
  rw [get_prices_from_tushare, hm]
  dsimp only
  rw [if_neg (by simpa using hne)]

theorem get_prices_res_empty (pro : Provider) (fields mapped : List String)
    (hm : mapFields fields = .ok mapped) :
    (get_prices_from_tushare pro [] fields).res = .error .concatEmpty := by
  rw [get_prices_from_tushare, hm]
  rfl

theorem get_prices_parallel_res (pro : Provider)
    (stocks fields mapped : List String)
    (hm : mapFields fields = .ok mapped)
    (hne : pro.daily (joinCodes stocks) ≠ []) :
    (get_prices_from_tushare_parallel pro stocks fields).res =
      (pivotCore (pro.daily (joinCodes stocks)) (fields.zip mapped)).map some := by
  rw [get_prices_from_tushare_parallel, hm]
  dsimp only
  rw [if_neg (by simpa using hne)]

theorem get_factors_res (pro : Provider) (stocks factors : List String)
    (hne : stocks ≠ []) :
    (get_factors_from_tushare pro stocks factors).res =
      pivotCore (seqLongFactors pro stocks factors)
        (factors.map (fun f => (f, f))) := by
  rw [get_factors_from_tushare]
  rw [if_neg (by simpa using hne)]

theorem get_factors_parallel_res (pro : Provider) (stocks factors : List String)
    (hne : pro.daily_basic (joinCodes stocks)
      (factors ++ ["trade_date", "ts_code"]) ≠ []) :
    (get_factors_from_tushare_parallel pro stocks factors).res =
      (pivotCore (pro.daily_basic (joinCodes stocks)
        (factors ++ ["trade_date", "ts_code"]))
        (factors.map (fun f => (f, f)))).map some := by
  rw [get_factors_from_tushare_parallel]
  rw [if_neg (by simpa using hne)]

/-! ### The claims -/

/-- Claim C10: for the empty symbol list, the sequential fetchers raise an
exception — the concatenation of an empty list of per-symbol results fails
(`pd.concat([])`) — rather than returning an empty wide table or an explicit
empty marker. -/
theorem C10_empty_symbol_list (pro : Provider)
    (fields factors mapped : List String)
    (hm : mapFields fields = .ok mapped) :
    (get_prices_from_tushare pro [] fields).res = .error .concatEmpty ∧
    (get_factors_from_tushare pro [] factors).res = .error .concatEmpty := by
  refine ⟨get_prices_res_empty pro fields mapped hm, ?_⟩
  rw [get_factors_from_tushare]
  rfl

theorem C10_empty_symbol_list_witness :
    (get_prices_from_tushare proC7 [] ["close"]).res = .error .concatEmpty ∧
    (get_factors_from_tushare proC7 [] ["total_mv"]).res =
      .error .concatEmpty :=
  C10_empty_symbol_list proC7 ["close"] ["total_mv"] ["Close"] (by decide)

/-- Claim C3: for every non-empty benchmark input series, the first
(earliest-date) net value returned by `get_index_prices_from_tushare` is
exactly 1, regardless of the first row's percent-change value. -/
theorem C3_first_net_value_one (raw : List IndexRow) (h : raw ≠ []) :
    ((get_index_prices_from_tushare raw).head?).map (fun t => t.2.2) =
      some 1 :=
  get_index_head_one raw h

theorem C3_first_net_value_one_witness :
    ((get_index_prices_from_tushare benchRowsC3).head?).map (fun t => t.2.2) =
      some 1 :=
  C3_first_net_value_one benchRowsC3 (by decide)

/-- Claim C7: when the provider's batched call returns an empty result set,
the batch fetchers return the explicit absent result `none` rather than
raising, and print the no-data diagnostic; the result is `none` exactly in
that case, so the empty-response test is the only point where this
diagnostic path changes control flow. -/
theorem C7_empty_batch (pro : Provider)
    (stocks fields factors mapped : List String)
    (hm : mapFields fields = .ok mapped) :
    ((get_prices_from_tushare_parallel pro stocks fields).res = .ok none ↔
      pro.daily (joinCodes stocks) = []) ∧
    (pro.daily (joinCodes stocks) = [] →
      "API 未返回任何数据，请检查输入参数！" ∈
        (get_prices_from_tushare_parallel pro stocks fields).msgs) ∧
    ((get_factors_from_tushare_parallel pro stocks factors).res = .ok none ↔
      pro.daily_basic (joinCodes stocks)
        (factors ++ ["trade_date", "ts_code"]) = []) ∧
    (pro.daily_basic (joinCodes stocks)
        (factors ++ ["trade_date", "ts_code"]) = [] →
      "API 未返回任何数据，请检查输入参数！" ∈
        (get_factors_from_tushare_parallel pro stocks factors).msgs) := by
  refine ⟨?_, ?_, ?_, ?_⟩
  · constructor
    · intro hok
      by_contra hne
      rw [get_prices_parallel_res pro stocks fields mapped hm hne] at hok
      cases hpiv : pivotCore (pro.daily (joinCodes stocks))
          (fields.zip mapped) with
      | ok w => rw [hpiv] at hok; cases hok
      | error e => rw [hpiv] at hok; cases hok
    · intro hempty
      rw [get_prices_from_tushare_parallel, hm]
      dsimp only
      rw [if_pos (by simpa using hempty)]
  · intro hempty
    rw [get_prices_from_tushare_parallel, hm]
    dsimp only
    rw [if_pos (by simpa using hempty)]
    simp
  · constructor
    · intro hok
      by_contra hne
      rw [get_factors_parallel_res pro stocks factors hne] at hok
      cases hpiv : pivotCore (pro.daily_basic (joinCodes stocks)
          (factors ++ ["trade_date", "ts_code"]))
          (factors.map (fun f => (f, f))) with
      | ok w => rw [hpiv] at hok; cases hok
      | error e => rw [hpiv] at hok; cases hok
    · intro hempty
      rw [get_factors_from_tushare_parallel]
      rw [if_pos (by simpa using hempty)]
  · intro hempty
    rw [get_factors_from_tushare_parallel]
    rw [if_pos (by simpa using hempty)]
    simp

theorem C7_empty_batch_witness :
    ((get_prices_from_tushare_parallel proC7 ["A", "B"] ["close"]).res =
        .ok none ↔ proC7.daily (joinCodes ["A", "B"]) = []) ∧
    (proC7.daily (joinCodes ["A", "B"]) = [] →
      "API 未返回任何数据，请检查输入参数！" ∈
        (get_prices_from_tushare_parallel proC7 ["A", "B"] ["close"]).msgs) ∧
    ((get_factors_from_tushare_parallel proC7 ["A", "B"] ["total_mv"]).res =
        .ok none ↔ proC7.daily_basic (joinCodes ["A", "B"])
          (["total_mv"] ++ ["trade_date", "ts_code"]) = []) ∧
    (proC7.daily_basic (joinCodes ["A", "B"])
        (["total_mv"] ++ ["trade_date", "ts_code"]) = [] →
      "API 未返回任何数据，请检查输入参数！" ∈
        (get_factors_from_tushare_parallel proC7 ["A", "B"] ["total_mv"]).msgs) :=
  C7_empty_batch proC7 ["A", "B"] ["close"] ["total_mv"] ["Close"] (by decide)

/-- Claim C6 (counterexample): the factor fetchers do not validate field
names against the normalization mapping — requesting `total_mv`, a name not
in the mapping, still issues the remote call (and succeeds), instead of
raising before any remote call. -/
theorem C6_counterexample :
    field_mapping.lookup "total_mv" = none ∧
    (get_factors_from_tushare proC6 ["A"] ["total_mv"]).calls = ["A"] ∧
    (get_factors_from_tushare proC6 ["A"] ["total_mv"]).res =
      .ok ⟨[("A", "total_mv")], [(1, [some 5])]⟩ ∧
    (get_factors_from_tushare_parallel proC6 ["A"] ["total_mv"]).calls =
      [joinCodes ["A"]] := by
  decide

/-- Claim C6 (amended): only the price fetchers check requested fields
against the normalization mapping — for a field list containing an unknown
name they raise `KeyError` having issued no remote call; the factor
fetchers pass their factor list to the provider unvalidated, issuing the
remote calls for every factor list. -/
theorem C6_unknown_field (pro : Provider) (stocks fields factors : List String)
    (f : String) (hf : f ∈ fields) (hunk : field_mapping.lookup f = none) :
    (∃ g, g ∈ fields ∧ field_mapping.lookup g = none ∧
      (get_prices_from_tushare pro stocks fields).res = .error (.keyError g) ∧
      (get_prices_from_tushare_parallel pro stocks fields).res =
        .error (.keyError g)) ∧
    (get_prices_from_tushare pro stocks fields).calls = [] ∧
    (get_prices_from_tushare_parallel pro stocks fields).calls = [] ∧
    (get_factors_from_tushare pro stocks factors).calls = stocks ∧
    (get_factors_from_tushare_parallel pro stocks factors).calls =
      [joinCodes stocks] := by
  rcases mapFields_error_of_unknown fields f hf hunk with ⟨g, hg, hgn, herr⟩
  refine ⟨⟨g, hg, hgn, ?_, ?_⟩, ?_, ?_, ?_, ?_⟩
  · rw [get_prices_from_tushare, herr]
  · rw [get_prices_from_tushare_parallel, herr]
  · rw [get_prices_from_tushare, herr]
  · rw [get_prices_from_tushare_parallel, herr]
  · rw [get_factors_from_tushare]
    split <;> rfl
  · rw [get_factors_from_tushare_parallel]
    split <;> rfl

theorem C6_unknown_field_witness :
    (∃ g, g ∈ ["bogus"] ∧ field_mapping.lookup g = none ∧
      (get_prices_from_tushare proC6 ["A"] ["bogus"]).res =
        .error (.keyError g) ∧
      (get_prices_from_tushare_parallel proC6 ["A"] ["bogus"]).res =
        .error (.keyError g)) ∧
    (get_prices_from_tushare proC6 ["A"] ["bogus"]).calls = [] ∧
    (get_prices_from_tushare_parallel proC6 ["A"] ["bogus"]).calls = [] ∧
    (get_factors_from_tushare proC6 ["A"] ["total_mv"]).calls = ["A"] ∧
    (get_factors_from_tushare_parallel proC6 ["A"] ["total_mv"]).calls =
      [joinCodes ["A"]] :=
  C6_unknown_field proC6 ["A"] ["bogus"] ["total_mv"] "bogus"
    (by decide) (by decide)

/-- Claim C2 (counterexample): on Scenario C's input (percent changes 0.5,
-1.0, 2.0 over three ascending dates) the code returns net values
[1, 0.99495, 1.014849], not [1, 0.99, 1.0098]: only the first cumulative
product is overwritten with 1, so the second value keeps the first row's
factor and violates value[1] = value[0] × (1 + pct_chg[1]/100). -/
theorem C2_counterexample :
    ((get_index_prices_from_tushare benchRowsC2).map (fun t => t.2.2))[1]? =
      some (19899 / 20000) ∧
    ((get_index_prices_from_tushare benchRowsC2).map (fun t => t.2.2))[1]? ≠
      some ((1 : Rat) * (1 + (-1) / 100)) ∧
    ((get_index_prices_from_tushare benchRowsC2).map (fun t => t.2.2)) ≠
      [1, 99 / 100, 10098 / 10000] := by
  have h := get_index_closed ⟨1, "X", 1 / 2⟩ [⟨2, "X", -1⟩, ⟨3, "X", 2⟩]
    (by decide)
  rw [show benchRowsC2 =
    ⟨1, "X", 1 / 2⟩ :: [⟨2, "X", -1⟩, ⟨3, "X", 2⟩] from rfl, h]
  refine ⟨?_, ?_, ?_⟩
  · show some ((1 + (1 : Rat) / 2 / 100) * (1 + (-1) / 100)) = _
    norm_num
  · show some ((1 + (1 : Rat) / 2 / 100) * (1 + (-1) / 100)) ≠ _
    intro hc
    rw [Option.some_inj] at hc
    norm_num at hc
  · intro hc
    rw [List.cons_eq_cons] at hc
    rcases hc with ⟨-, hc⟩
    rw [show cumprod (1 + (1 : Rat) / 2 / 100)
      ([⟨2, "X", -1⟩, ⟨3, "X", 2⟩].map (fun x : IndexRow =>
        1 + x.pct_chg / 100)) =
      [(1 + (1 : Rat) / 2 / 100) * (1 + (-1) / 100),
       (1 + (1 : Rat) / 2 / 100) * (1 + (-1) / 100) * (1 + 2 / 100)]
      from rfl] at hc
    rw [List.cons_eq_cons] at hc
    rcases hc with ⟨hc, -⟩
    norm_num at hc

/-- Claim C2 (amended): for a non-empty benchmark series sorted strictly
ascending by date, the first output net value is 1 and the recurrence
value[i] = value[i-1] × (1 + pct_chg[i]/100) holds for every i ≥ 2; but
value[1] equals (1 + pct_chg[0]/100) × (1 + pct_chg[1]/100) — the first
row's factor is not removed, so the recurrence at i = 1 fails whenever
pct_chg[0] ≠ 0 (on Scenario C's input the outputs are
[1, 0.99495, 1.0148490]). -/
theorem C2_net_value_recurrence (raw : List IndexRow) (hne : raw ≠ [])
    (hasc : raw.Pairwise (fun a b => a.trade_date < b.trade_date)) :
    ((get_index_prices_from_tushare raw).map (fun t => t.2.2))[0]? =
      some 1 ∧
    (∀ i v1 v2 f,
      ((get_index_prices_from_tushare raw).map (fun t => t.2.2))[i + 1]? =
        some v1 →
      ((get_index_prices_from_tushare raw).map (fun t => t.2.2))[i + 2]? =
        some v2 →
      (raw.map (fun r => 1 + r.pct_chg / 100))[i + 2]? = some f →
      v2 = v1 * f) ∧
    (∀ v1 f0 f1,
      ((get_index_prices_from_tushare raw).map (fun t => t.2.2))[1]? =
        some v1 →
      (raw.map (fun r => 1 + r.pct_chg / 100))[0]? = some f0 →
      (raw.map (fun r => 1 + r.pct_chg / 100))[1]? = some f1 →
      v1 = f0 * f1) := by
  cases raw with
  | nil => cases hne rfl
  | cons r rs =>
    rw [get_index_closed r rs hasc]
    refine ⟨List.getElem?_cons_zero, ?_, ?_⟩
    · intro i v1 v2 f h1 h2 hf
      rw [List.getElem?_cons_succ] at h1 h2
      rw [List.map_cons, List.getElem?_cons_succ] at hf
      have hrec := cumprod_succ_getElem (1 + r.pct_chg / 100)
        (rs.map (fun x => 1 + x.pct_chg / 100)) i
      rw [h1, h2, hf] at hrec
      simpa using hrec
    · intro v1 f0 f1 h1 hf0 hf1
      rw [List.getElem?_cons_succ] at h1
      rw [List.map_cons, List.getElem?_cons_zero, Option.some_inj] at hf0
      rw [List.map_cons, List.getElem?_cons_succ] at hf1
      cases rs with
      | nil => simp [cumprod] at h1
      | cons x xs =>
        rw [List.map_cons] at h1 hf1
        rw [show cumprod (1 + r.pct_chg / 100)
            ((1 + x.pct_chg / 100) ::
              xs.map (fun y => 1 + y.pct_chg / 100)) =
          ((1 + r.pct_chg / 100) * (1 + x.pct_chg / 100)) ::
            cumprod ((1 + r.pct_chg / 100) * (1 + x.pct_chg / 100))
              (xs.map (fun y => 1 + y.pct_chg / 100)) from rfl] at h1
        rw [List.getElem?_cons_zero, Option.some_inj] at h1
        rw [List.getElem?_cons_zero, Option.some_inj] at hf1
        rw [← h1, ← hf0, ← hf1]

theorem C2_net_value_recurrence_witness :
    ((get_index_prices_from_tushare benchRowsC2).map (fun t => t.2.2))[0]? =
      some 1 ∧
    (∀ i v1 v2 f,
      ((get_index_prices_from_tushare benchRowsC2).map
        (fun t => t.2.2))[i + 1]? = some v1 →
      ((get_index_prices_from_tushare benchRowsC2).map
        (fun t => t.2.2))[i + 2]? = some v2 →
      (benchRowsC2.map (fun r => 1 + r.pct_chg / 100))[i + 2]? = some f →
      v2 = v1 * f) ∧
    (∀ v1 f0 f1,
      ((get_index_prices_from_tushare benchRowsC2).map
        (fun t => t.2.2))[1]? = some v1 →
      (benchRowsC2.map (fun r => 1 + r.pct_chg / 100))[0]? = some f0 →
      (benchRowsC2.map (fun r => 1 + r.pct_chg / 100))[1]? = some f1 →
      v1 = f0 * f1) :=
  C2_net_value_recurrence benchRowsC2 (by decide) (by decide)

/-- Claim C8 (counterexample): a provider response with duplicate
(date, symbol) rows is reshaped silently into a wide table — no error is
raised; both duplicated rows survive with the same date label. -/
theorem C8_counterexample :
    (get_prices_from_tushare proC8 ["A"] ["close"]).res =
      .ok ⟨[("A", "Close")], [(1, [some 10]), (1, [some 11])]⟩ := by
  decide

/-- Claim C8 (amended): the reshaping step never reports duplicates as a
data-quality error.  When every symbol's date sequence coincides with the
first symbol's, it silently returns a wide table whose dates are a
permutation of that (duplicate-carrying) index — every duplicated row is
kept, none is resolved away; an error arises only when the per-symbol date
sequences differ and some symbol's sequence has duplicates, and it is the
reindexing failure `duplicateAxis`, not a data-quality report. -/
theorem C8_duplicates_silent (L : List RawRow)
    (pairs : List (String × String)) (s0 : String) (rest : List String)
    (hU : uniqueKeep L = s0 :: rest) :
    (((s0 :: rest).all (fun s => datesOf L s == datesOf L s0)) = true →
      ∃ w, pivotCore L pairs = .ok w ∧
        (w.rows.map Prod.fst).Perm (datesOf L s0)) ∧
    (((s0 :: rest).all (fun s => datesOf L s == datesOf L s0)) = false →
      ((s0 :: rest).all (fun s => decide (datesOf L s).Nodup)) = false →
      pivotCore L pairs = .error .duplicateAxis) :=
  ⟨fun hA => pivotCore_dup_keeps_rows L pairs s0 rest hU hA,
   fun hA hB => pivotCore_dup_error L pairs s0 rest hU hA hB⟩

theorem C8_duplicates_silent_witness :
    ((["A"].all (fun s => datesOf dupRowsC8 s == datesOf dupRowsC8 "A")) =
        true →
      ∃ w, pivotCore dupRowsC8 [("close", "Close")] = .ok w ∧
        (w.rows.map Prod.fst).Perm (datesOf dupRowsC8 "A")) ∧
    ((["A"].all (fun s => datesOf dupRowsC8 s == datesOf dupRowsC8 "A")) =
        false →
      (["A"].all (fun s => decide (datesOf dupRowsC8 s).Nodup)) = false →
      pivotCore dupRowsC8 [("close", "Close")] = .error .duplicateAxis) :=
  C8_duplicates_silent dupRowsC8 [("close", "Close")] "A" [] (by decide)

/-- Claim C9: a symbol whose remote call returns zero rows contributes
nothing: with well-formed data for the remaining symbols and at least one
remaining symbol, both sequential fetchers succeed and return exactly the
wide table of the symbol list without the zero-row symbol. -/
theorem C9_zero_row_symbol (pro : Provider) (l1 l2 : List String) (z : String)
    (fields factors mapped : List String)
    (hm : mapFields fields = .ok mapped)
    (hz : pro.daily z = [])
    (hzf : pro.daily_basic z (factors ++ ["trade_date"]) = [])
    (hne : l1 ++ l2 ≠ [])
    (hndp : ∀ s ∈ uniqueKeep (seqLongPrices pro (l1 ++ l2)),
      (datesOf (seqLongPrices pro (l1 ++ l2)) s).Nodup)
    (hndf : ∀ s ∈ uniqueKeep (seqLongFactors pro (l1 ++ l2) factors),
      (datesOf (seqLongFactors pro (l1 ++ l2) factors) s).Nodup) :
    (∃ w, (get_prices_from_tushare pro (l1 ++ z :: l2) fields).res = .ok w ∧
      (get_prices_from_tushare pro (l1 ++ l2) fields).res = .ok w) ∧
    (∃ w, (get_factors_from_tushare pro (l1 ++ z :: l2) factors).res =
        .ok w ∧
      (get_factors_from_tushare pro (l1 ++ l2) factors).res = .ok w) := by
  have hcne : l1 ++ z :: l2 ≠ [] := by
    intro hc
    rcases List.append_eq_nil.mp hc with ⟨-, h2⟩
    cases h2
  have hLp : seqLongPrices pro (l1 ++ z :: l2) =
      seqLongPrices pro (l1 ++ l2) := by
    rw [seqLongPrices, seqLongPrices, List.flatMap_append,
      List.flatMap_append, List.flatMap_cons, hz]
    rfl
  have hLf : seqLongFactors pro (l1 ++ z :: l2) factors =
      seqLongFactors pro (l1 ++ l2) factors := by
    rw [seqLongFactors, seqLongFactors, List.flatMap_append,
      List.flatMap_append, List.flatMap_cons, hzf]
    rfl
  constructor
  · rw [get_prices_res pro _ fields mapped hm hcne,
      get_prices_res pro _ fields mapped hm hne, hLp]
    rw [pivotCore_canon _ _ (nodup_datesOf_of_mem_forall _ hndp)]
    exact ⟨_, rfl, rfl⟩
  · rw [get_factors_res pro _ factors hcne,
      get_factors_res pro _ factors hne, hLf]
    rw [pivotCore_canon _ _ (nodup_datesOf_of_mem_forall _ hndf)]
    exact ⟨_, rfl, rfl⟩

theorem C9_zero_row_symbol_witness :
    (∃ w, (get_prices_from_tushare proC9 (["A"] ++ "Z" :: []) ["close"]).res =
        .ok w ∧
      (get_prices_from_tushare proC9 (["A"] ++ []) ["close"]).res = .ok w) ∧
    (∃ w, (get_factors_from_tushare proC9 (["A"] ++ "Z" :: [])
        ["total_mv"]).res = .ok w ∧
      (get_factors_from_tushare proC9 (["A"] ++ []) ["total_mv"]).res =
        .ok w) :=
  C9_zero_row_symbol proC9 ["A"] [] "Z" ["close"] ["total_mv"] ["Close"]
    (by decide) (by decide) (by decide) (by decide) (by decide) (by decide)

/-- Claim C4: the wide table's column set is exactly
{(s, canonical f) : s a symbol with at least one returned row, f a
requested field} — zero-row symbols get no columns — with symbols in
first-seen order of the long table and fields in caller order. -/
theorem C4_column_set (pro : Provider) (stocks fields mapped : List String)
    (w : WideTable) (hm : mapFields fields = .ok mapped)
    (hw : (get_prices_from_tushare pro stocks fields).res = .ok w) :
    w.cols = (firstSeenSpec (seqLongPrices pro stocks)).flatMap
        (fun s => mapped.map (fun m => (s, m))) ∧
    (∀ s m, (s, m) ∈ w.cols ↔
      ((∃ r ∈ seqLongPrices pro stocks, r.ts_code = s) ∧
        ∃ f ∈ fields, field_mapping.lookup f = some m)) := by
  have hst : stocks ≠ [] := by
    intro hc
    subst hc
    rw [get_prices_res_empty pro fields mapped hm] at hw
    cases hw
  rw [get_prices_res pro stocks fields mapped hm hst] at hw
  have hcols := pivotCore_ok_cols _ _ _ hw
  have hlen : mapped.length = fields.length :=
    mapFields_ok_length fields mapped hm
  have hsnd : (fields.zip mapped).map Prod.snd = mapped :=
    List.map_snd_zip fields mapped (by omega)
  have hfun : (fun s : String => (fields.zip mapped).map
      (fun p : String × String => (s, p.2))) =
      (fun s : String => mapped.map (fun m => (s, m))) := by
    funext s
    rw [show (fun p : String × String => (s, p.2)) =
      ((fun m => (s, m)) ∘ Prod.snd) from rfl, ← List.map_map, hsnd]
  have hck : w.cols = (uniqueKeep (seqLongPrices pro stocks)).flatMap
      (fun s => mapped.map (fun m => (s, m))) := by
    rw [hcols, colKeys, hfun]
  refine ⟨by rw [hck, uniqueKeep_eq_firstSeenSpec], ?_⟩
  intro s m
  rw [hck]
  simp only [List.mem_flatMap, List.mem_map]
  constructor
  · rintro ⟨s', hs', m', hm', heq⟩
    injection heq with h1 h2
    subst h1
    subst h2
    exact ⟨(uniqueKeep_mem _ _).mp hs',
      (mapFields_ok_mem fields mapped hm _).mp hm'⟩
  · rintro ⟨hex, hf⟩
    exact ⟨s, (uniqueKeep_mem _ _).mpr hex, m,
      (mapFields_ok_mem fields mapped hm m).mpr hf, rfl⟩

theorem C4_column_set_witness :
    wC4.cols = (firstSeenSpec (seqLongPrices proC4 ["A", "Z"])).flatMap
        (fun s => ["Close"].map (fun m => (s, m))) ∧
    (∀ s m, (s, m) ∈ wC4.cols ↔
      ((∃ r ∈ seqLongPrices proC4 ["A", "Z"], r.ts_code = s) ∧
        ∃ f ∈ ["close"], field_mapping.lookup f = some m)) :=
  C4_column_set proC4 ["A", "Z"] ["close"] ["Close"] wC4
    (by decide) (by decide)

/-- Claim C5: every wide table returned by any of the four fetch-and-reshape
operations has its rows sorted ascending by date. -/
theorem C5_rows_sorted (pro : Provider) (stocks fields factors : List String) :
    (∀ w, (get_prices_from_tushare pro stocks fields).res = .ok w →
      w.rows.Pairwise rowLE) ∧
    (∀ w, (get_prices_from_tushare_parallel pro stocks fields).res =
        .ok (some w) → w.rows.Pairwise rowLE) ∧
    (∀ w, (get_factors_from_tushare pro stocks factors).res = .ok w →
      w.rows.Pairwise rowLE) ∧
    (∀ w, (get_factors_from_tushare_parallel pro stocks factors).res =
        .ok (some w) → w.rows.Pairwise rowLE) := by
  refine ⟨?_, ?_, ?_, ?_⟩
  · intro w hw
    cases hm : mapFields fields with
    | error e =>
      rw [get_prices_from_tushare, hm] at hw
      cases hw
    | ok mapped =>
      by_cases hst : stocks = []
      · subst hst
        rw [get_prices_res_empty pro fields mapped hm] at hw
        cases hw
      · rw [get_prices_res pro stocks fields mapped hm hst] at hw
        exact pivotCore_rows_sorted _ _ _ hw
  · intro w hw
    cases hm : mapFields fields with
    | error e =>
      rw [get_prices_from_tushare_parallel, hm] at hw
      cases hw
    | ok mapped =>
      by_cases hne : pro.daily (joinCodes stocks) = []
      · rw [get_prices_from_tushare_parallel, hm] at hw
        dsimp only at hw
        rw [if_pos (by simpa using hne)] at hw
        cases hw
      · rw [get_prices_parallel_res pro stocks fields mapped hm hne] at hw
        cases hpiv : pivotCore (pro.daily (joinCodes stocks))
            (fields.zip mapped) with
        | ok w' =>
          rw [hpiv] at hw
          cases hw
          exact pivotCore_rows_sorted _ _ _ hpiv
        | error e =>
          rw [hpiv] at hw
          cases hw
  · intro w hw
    by_cases hst : stocks = []
    · subst hst
      rw [get_factors_from_tushare] at hw
      cases hw
    · rw [get_factors_res pro stocks factors hst] at hw
      exact pivotCore_rows_sorted _ _ _ hw
  · intro w hw
    by_cases hne : pro.daily_basic (joinCodes stocks)
        (factors ++ ["trade_date", "ts_code"]) = []
    · rw [get_factors_from_tushare_parallel] at hw
      rw [if_pos (by simpa using hne)] at hw
      cases hw
    · rw [get_factors_parallel_res pro stocks factors hne] at hw
      cases hpiv : pivotCore (pro.daily_basic (joinCodes stocks)
          (factors ++ ["trade_date", "ts_code"]))
          (factors.map (fun f => (f, f))) with
      | ok w' =>
        rw [hpiv] at hw
        cases hw
        exact pivotCore_rows_sorted _ _ _ hpiv
      | error e =>
        rw [hpiv] at hw
        cases hw

theorem C5_rows_sorted_witness :
    wC5a.rows.Pairwise rowLE ∧ wC5b.rows.Pairwise rowLE :=
  ⟨(C5_rows_sorted proC5 ["A"] ["close"] ["total_mv"]).1 wC5a (by decide),
   (C5_rows_sorted proC5 ["A"] ["close"] ["total_mv"]).2.2.1 wC5b (by decide)⟩

/-- Claim C1 (counterexample): with a provider that accepts the combined
request and returns exactly the same observations as the per-symbol calls —
merely listing symbol B's rows before symbol A's — the sequential and the
batched fetch-and-reshape return different wide tables: the column (and
cell) order differs, because column order follows first-seen symbol order
of each long table. -/
theorem C1_counterexample :
    (proC1x.daily (joinCodes ["A", "B"])).Perm
      (seqLongPrices proC1x ["A", "B"]) ∧
    ((uniqueKeep (seqLongPrices proC1x ["A", "B"])).all
      (fun s => decide ((datesOf (seqLongPrices proC1x ["A", "B"]) s).Nodup)))
      = true ∧
    (get_prices_from_tushare proC1x ["A", "B"] ["close"]).res =
      .ok ⟨[("A", "Close"), ("B", "Close")], [(1, [some 10, some 20])]⟩ ∧
    (get_prices_from_tushare_parallel proC1x ["A", "B"] ["close"]).res =
      .ok (some ⟨[("B", "Close"), ("A", "Close")],
        [(1, [some 20, some 10])]⟩) ∧
    (⟨[("A", "Close"), ("B", "Close")], [(1, [some 10, some 20])]⟩ :
        WideTable) ≠
      ⟨[("B", "Close"), ("A", "Close")], [(1, [some 20, some 10])]⟩ := by
  decide

/-- Claim C1 (amended): when the provider accepts the combined request —
the batched response holds exactly the observations of the per-symbol
responses — and the data is well formed (one row per symbol and date, at
least one row overall), sequential and batched fetch-and-reshape agree on
the row set, the row order, the column set and every cell keyed by
(date, symbol, field); the tables are identical whenever the batched
response's first-seen symbol order equals the sequential one, but column
order (and with it cell order) may differ otherwise. -/
theorem C1_batch_equivalence (pro : Provider)
    (stocks fields factors mapped : List String)
    (hst : stocks ≠ [])
    (hm : mapFields fields = .ok mapped)
    (hpp : (pro.daily (joinCodes stocks)).Perm (seqLongPrices pro stocks))
    (hndp : ∀ s ∈ uniqueKeep (seqLongPrices pro stocks),
      (datesOf (seqLongPrices pro stocks) s).Nodup)
    (hnep : seqLongPrices pro stocks ≠ [])
    (hpf : (pro.daily_basic (joinCodes stocks)
        (factors ++ ["trade_date", "ts_code"])).Perm
      (seqLongFactors pro stocks factors))
    (hndf : ∀ s ∈ uniqueKeep (seqLongFactors pro stocks factors),
      (datesOf (seqLongFactors pro stocks factors) s).Nodup)
    (hnef : seqLongFactors pro stocks factors ≠ []) :
    (∃ w1 w2, (get_prices_from_tushare pro stocks fields).res = .ok w1 ∧
      (get_prices_from_tushare_parallel pro stocks fields).res =
        .ok (some w2) ∧
      w1.rows.map Prod.fst = w2.rows.map Prod.fst ∧
      w1.cols.Perm w2.cols ∧
      (∀ d c, cellVal w1 d c = cellVal w2 d c) ∧
      (uniqueKeep (pro.daily (joinCodes stocks)) =
        uniqueKeep (seqLongPrices pro stocks) → w1 = w2)) ∧
    (∃ w1 w2, (get_factors_from_tushare pro stocks factors).res = .ok w1 ∧
      (get_factors_from_tushare_parallel pro stocks factors).res =
        .ok (some w2) ∧
      w1.rows.map Prod.fst = w2.rows.map Prod.fst ∧
      w1.cols.Perm w2.cols ∧
      (∀ d c, cellVal w1 d c = cellVal w2 d c) ∧
      (uniqueKeep (pro.daily_basic (joinCodes stocks)
          (factors ++ ["trade_date", "ts_code"])) =
        uniqueKeep (seqLongFactors pro stocks factors) → w1 = w2)) := by
  constructor
  · have hbne : pro.daily (joinCodes stocks) ≠ [] := by
      intro hc
      apply hnep
      have := hpp.length_eq
      rw [hc] at this
      exact List.length_eq_zero.mp this.symm
    rcases pivotCore_perm (seqLongPrices pro stocks)
        (pro.daily (joinCodes stocks)) (fields.zip mapped) hpp.symm
        (nodup_datesOf_of_mem_forall _ hndp) with
      ⟨w1, w2, h1, h2, hrows, hcols, hcell, hful⟩
    refine ⟨w1, w2, ?_, ?_, hrows, hcols, hcell, hful⟩
    · rw [get_prices_res pro stocks fields mapped hm hst, h1]
    · rw [get_prices_parallel_res pro stocks fields mapped hm hbne, h2]
      rfl
  · have hbne : pro.daily_basic (joinCodes stocks)
        (factors ++ ["trade_date", "ts_code"]) ≠ [] := by
      intro hc
      apply hnef
      have := hpf.length_eq
      rw [hc] at this
      exact List.length_eq_zero.mp this.symm
    rcases pivotCore_perm (seqLongFactors pro stocks factors)
        (pro.daily_basic (joinCodes stocks)
          (factors ++ ["trade_date", "ts_code"]))
        (factors.map (fun f => (f, f))) hpf.symm
        (nodup_datesOf_of_mem_forall _ hndf) with
      ⟨w1, w2, h1, h2, hrows, hcols, hcell, hful⟩
    refine ⟨w1, w2, ?_, ?_, hrows, hcols, hcell, hful⟩
    · rw [get_factors_res pro stocks factors hst, h1]
    · rw [get_factors_parallel_res pro stocks factors hbne, h2]
      rfl

theorem C1_batch_equivalence_witness :
    (∃ w1 w2, (get_prices_from_tushare proC1w ["A", "B"] ["close"]).res =
        .ok w1 ∧
      (get_prices_from_tushare_parallel proC1w ["A", "B"] ["close"]).res =
        .ok (some w2) ∧
      w1.rows.map Prod.fst = w2.rows.map Prod.fst ∧
      w1.cols.Perm w2.cols ∧
      (∀ d c, cellVal w1 d c = cellVal w2 d c) ∧
      (uniqueKeep (proC1w.daily (joinCodes ["A", "B"])) =
        uniqueKeep (seqLongPrices proC1w ["A", "B"]) → w1 = w2)) ∧
    (∃ w1 w2, (get_factors_from_tushare proC1w ["A", "B"]
        ["total_mv"]).res = .ok w1 ∧
      (get_factors_from_tushare_parallel proC1w ["A", "B"]
        ["total_mv"]).res = .ok (some w2) ∧
      w1.rows.map Prod.fst = w2.rows.map Prod.fst ∧
      w1.cols.Perm w2.cols ∧
      (∀ d c, cellVal w1 d c = cellVal w2 d c) ∧
      (uniqueKeep (proC1w.daily_basic (joinCodes ["A", "B"])
          (["total_mv"] ++ ["trade_date", "ts_code"])) =
        uniqueKeep (seqLongFactors proC1w ["A", "B"] ["total_mv"]) →
        w1 = w2)) :=
  C1_batch_equivalence proC1w ["A", "B"] ["close"] ["total_mv"] ["Close"]
    (by decide) (by decide) (by decide) (by decide) (by decide) (by decide)
    (by decide) (by decide)
